import Mathlib

/-!
Verification of the coinselect engine's validators and of the sweep
selector `maxFunds` (src/src/validation.ts and the unnamed source file
holding `maxFunds`).

Embedding conventions:
* Monetary values and fee rates are exact rationals (`ℚ`); the spec's data
  model declares fee rates to be rational and validated values to be
  integers, and within the validated ranges JavaScript double arithmetic on
  them is exact.
* JavaScript numbers passed to `validateFeeRate` may be non-finite, so fee
  rates at the API boundary are modelled by `JSNum`, which adds `nan`,
  `posInf` and `negInf` to the finite rationals.
* Fallible functions return `Except Err α`, with one `Err` constructor per
  error in the error taxonomy (plus the internal `feeContribution < 0`
  guard of `maxFunds`).
-/

deriving instance DecidableEq for Except

attribute [local semireducible] Rat.add Rat.sub Rat.mul Rat.inv Rat.ofScientific

/-- `Math.ceil` on an exact rational, as an integer.  Stated so that the
kernel can evaluate it on concrete inputs; `ceilQ_eq_ceil` below identifies
it with `Int.ceil`. -/
def ceilQ (q : ℚ) : ℤ := -((-q).num / ((-q).den : ℤ))

/-- Errors thrown by the validators and by `maxFunds`, one constructor per
distinct failure in the source. -/
inductive Err : Type where
  | emptyGroup : Err
  | invalidValue : Err
  | invalidFeeRate : Err
  | dustTarget : Nat → Err
  | insufficientFee : Err
  | negFeeContribution : Err
deriving DecidableEq, Repr

/-- A JavaScript number: a finite rational or one of the non-finite values.
Only used where the source can observe non-finiteness (`Number.isFinite`). -/
inductive JSNum : Type where
  | nan : JSNum
  | posInf : JSNum
  | negInf : JSNum
  | fin : ℚ → JSNum
deriving DecidableEq, Repr

/-- The rational carried by a finite `JSNum`; non-finite values map to a
junk value (they never flow past `validateFeeRate`, which rejects them). -/
def JSNum.toQ : JSNum → ℚ
  | .fin q => q
  | _ => 0

/-- An `OutputInstance` (opaque Output Handle of the external descriptor
library), reduced to what the engine reads from it: a deterministic weight
contribution when used as a transaction input and one when used as an
output. -/
structure OutputInstance : Type where
  inputWeight : ℕ
  outputWeight : ℕ
deriving DecidableEq, Repr

/-- `OutputWithValue`: an Output Handle paired with a value in the smallest
currency unit.  The value is a `ℚ` because validation must be able to
reject non-integer values. -/
structure OutputWithValue : Type where
  output : OutputInstance
  value : ℚ
deriving DecidableEq, Repr

/-- Modelled from the spec: `vsize.ts` is not under src/.  Virtual size =
transaction base overhead plus each input's and each output's weight
contribution, converted from weight units to vbytes by dividing by 4 and
rounding up.  The base overhead (version, counts, locktime) is a fixed
positive constant. -/
def txOverheadWeight : ℕ := 40

/-- Modelled from the spec: `vsize.ts` is not under src/.  Deterministic
virtual size of a transaction with the given input and output handles. -/
def vsize (inputs outputs : List OutputInstance) : ℕ :=
  (txOverheadWeight + (inputs.map (·.inputWeight)).sum
    + (outputs.map (·.outputWeight)).sum + 3) / 4

/-- Modelled from the spec: `dust.ts` is not under src/.  A value is dust
when it is below the relay cost of spending that output alone as the sole
input of a minimal future transaction. -/
def isDust (output : OutputInstance) (value : ℚ) (dustRelayFeeRate : ℚ) : Bool :=
  value < dustRelayFeeRate * (vsize [output] [] : ℚ)

/-- Modelled from the spec: `index.ts` is not under src/.  The configured
maximum fee-rate bound (overflow/DoS guard). -/
def MAX_FEE_RATE : ℚ := 10000

/-- Modelled from the spec: `index.ts` is not under src/.  Default relay
fee rate used for dust checks. -/
def DUST_RELAY_FEE_RATE : ℚ := 3

/-- One entry's value passes `validateOutputWithValues`: it is an integer,
positive, and at most 10^14. -/
def validValue (q : ℚ) : Bool := q.den = 1 && 0 < q && q ≤ 10 ^ 14

/-- The per-entry loop of `validateOutputWithValues`: throws
`InvalidValueError` at the first entry whose value is non-integer, ≤ 0 or
above 10^14. -/
def checkValues : List OutputWithValue → Except Err Unit
  | [] => .ok ()
  | o :: rest => if validValue o.value then checkValues rest else .error .invalidValue

/-- `validateOutputWithValues` (src/src/validation.ts lines 4–14). -/
def validateOutputWithValues (outputAndValues : List OutputWithValue) :
    Except Err Unit :=
  if outputAndValues.isEmpty then .error .emptyGroup
  else checkValues outputAndValues

/-- `validateFeeRate` (src/src/validation.ts lines 15–19): rejects a fee
rate that is non-finite, below 1 or above `MAX_FEE_RATE`. -/
def validateFeeRate (feeRate : JSNum) : Except Err Unit :=
  match feeRate with
  | .fin q => if q < 1 ∨ q > MAX_FEE_RATE then .error .invalidFeeRate else .ok ()
  | _ => .error .invalidFeeRate

/-- The indexed loop of `validateDust`. -/
def checkDust (dustRelayFeeRate : ℚ) : ℕ → List OutputWithValue → Except Err Unit
  | _, [] => .ok ()
  | i, t :: rest =>
    if isDust t.output t.value dustRelayFeeRate then .error (.dustTarget i)
    else checkDust dustRelayFeeRate (i + 1) rest

/-- `validateDust` (src/src/validation.ts lines 21–28): throws
`DustTargetError` carrying the index of the first dusty target. -/
def validateDust (targets : List OutputWithValue) (dustRelayFeeRate : ℚ) :
    Except Err Unit :=
  checkDust dustRelayFeeRate 0 targets

/-- The `{fee, vsize}` pair returned by `validatedFeeAndVsize`. -/
structure FeeAndVsize : Type where
  fee : ℚ
  vsize : ℕ
deriving DecidableEq, Repr

/-- Sum of the values of a list of `OutputWithValue`. -/
def sumValues (l : List OutputWithValue) : ℚ := (l.map (·.value)).sum

/-- `validatedFeeAndVsize` (src/src/validation.ts lines 29–48): fee is the
value surplus, vsize comes from the size estimator, the realized rate must
reach the requested one and re-pass `validateFeeRate`. -/
def validatedFeeAndVsize (utxos targets : List OutputWithValue) (feeRate : ℚ) :
    Except Err FeeAndVsize :=
  let fee := sumValues utxos - sumValues targets
  let vsizeResult := vsize (utxos.map (·.output)) (targets.map (·.output))
  let finalFeeRate := fee / (vsizeResult : ℚ)
  if finalFeeRate < feeRate then .error .insufficientFee
  else do
    validateFeeRate (.fin finalFeeRate)
    .ok ⟨fee, vsizeResult⟩

/-- `allUtxosFee` of `maxFunds`: ceiling of `feeRate` times the vsize of
spending every candidate UTXO into the single recipient. -/
def allUtxosFee (utxos : List OutputWithValue) (remainder : OutputInstance)
    (feeRate : ℚ) : ℤ :=
  ceilQ (feeRate * (vsize (utxos.map (·.output)) [remainder] : ℚ))

/-- The `feeContribution` computed inside the filter of `maxFunds`: fee for
the whole set minus the fee for the set with this UTXO excluded
(`utxos.filter(utxo => utxo !== validUtxo)` in the source; reference
identity of array entries is modelled by equality of the embedded values). -/
def feeContribution (utxos : List OutputWithValue) (remainder : OutputInstance)
    (feeRate : ℚ) (validUtxo : OutputWithValue) : ℤ :=
  allUtxosFee utxos remainder feeRate -
    ceilQ (feeRate * (vsize ((utxos.filter (· ≠ validUtxo)).map (·.output))
      [remainder] : ℚ))

/-- The filter of `maxFunds` (source lines 47–56): keep a UTXO when its
value exceeds its fee contribution; throw if a contribution is negative.
The predicate runs left to right, as `Array.prototype.filter` does. -/
def filterValidUtxos (utxos : List OutputWithValue) (remainder : OutputInstance)
    (feeRate : ℚ) : List OutputWithValue → Except Err (List OutputWithValue)
  | [] => .ok []
  | u :: rest =>
    let fc := feeContribution utxos remainder feeRate u
    if fc < 0 then .error .negFeeContribution
    else do
      let tail ← filterValidUtxos utxos remainder feeRate rest
      .ok (if (fc : ℚ) < u.value then u :: tail else tail)

/-- The selection result returned by `maxFunds` on success. -/
structure SelectionResult : Type where
  utxos : List OutputWithValue
  targets : List OutputWithValue
  fee : ℚ
  vsize : ℕ
deriving DecidableEq, Repr

/-- The selection phase of `maxFunds` (source lines 38–76), after the three
validations have passed: prune uneconomical UTXOs, send everything left to
the single recipient, and return nothing (rather than fail) when the
recipient value would be dust. -/
def maxFundsSelect (utxos : List OutputWithValue) (remainder : OutputInstance)
    (fr dr : ℚ) : Except Err (Option SelectionResult) := do
  let validUtxos ← filterValidUtxos utxos remainder fr utxos
  let validFee : ℤ := ceilQ (fr * (vsize (validUtxos.map (·.output)) [remainder] : ℚ))
  let validUtxosValue := sumValues validUtxos
  let remainderValue := validUtxosValue - (validFee : ℚ)
  if ¬ isDust remainder remainderValue dr then
    let targets := [⟨remainder, remainderValue⟩]
    let fv ← validatedFeeAndVsize validUtxos targets fr
    .ok (some
      { utxos := if utxos.length = validUtxos.length then utxos else validUtxos
        targets := targets
        fee := fv.fee
        vsize := fv.vsize })
  else .ok none

/-- `maxFunds` (the unnamed source file, lines 20–77). -/
def maxFunds (utxos : List OutputWithValue) (remainder : OutputInstance)
    (feeRate dustRelayFeeRate : JSNum) : Except Err (Option SelectionResult) := do
  validateOutputWithValues utxos
  validateFeeRate feeRate
  validateFeeRate dustRelayFeeRate
  maxFundsSelect utxos remainder feeRate.toQ dustRelayFeeRate.toQ

/-- The list of UTXOs retained by the filter of `maxFunds`: those whose
value strictly exceeds their own marginal fee contribution.  This is the
value `filterValidUtxos` computes when its guard does not fire. -/
def validUtxosOf (utxos : List OutputWithValue) (remainder : OutputInstance)
    (fr : ℚ) : List OutputWithValue :=
  utxos.filter fun u => decide ((feeContribution utxos remainder fr u : ℚ) < u.value)

/-- The vsize of spending the retained UTXO set into the recipient. -/
def sweepVsize (utxos : List OutputWithValue) (remainder : OutputInstance)
    (fr : ℚ) : ℕ :=
  vsize ((validUtxosOf utxos remainder fr).map (·.output)) [remainder]

/-- The `validFee` recomputed by `maxFunds` over the retained UTXO set. -/
def sweepFee (utxos : List OutputWithValue) (remainder : OutputInstance)
    (fr : ℚ) : ℤ :=
  ceilQ (fr * (sweepVsize utxos remainder fr : ℚ))

/-- The recipient (`remainderValue`) computed by `maxFunds`: everything the
retained UTXOs hold, minus the recomputed fee. -/
def remainderValueOf (utxos : List OutputWithValue) (remainder : OutputInstance)
    (fr : ℚ) : ℚ :=
  sumValues (validUtxosOf utxos remainder fr) - (sweepFee utxos remainder fr : ℚ)

/-- Concrete output shape used in witness instantiations (weights of a
typical P2WPKH input/output). -/
def wOut : OutputInstance := ⟨272, 124⟩

/-- Concrete UTXO used in witness instantiations. -/
def wUtxo : OutputWithValue := ⟨wOut, 100000⟩

/-- The selection `maxFunds` produces for `wUtxo` at fee rate 1. -/
def wRes : SelectionResult := ⟨[wUtxo], [⟨wOut, 99891⟩], 109, 109⟩

/-! ### Basic lemmas -/

theorem ceilQ_eq_ceil (q : ℚ) : ceilQ q = ⌈q⌉ := by
  have h : ⌊-q⌋ = (-q).num / ((-q).den : ℤ) := Rat.floor_def
  rw [ceilQ, ← h, Int.floor_neg, neg_neg]

theorem le_ceilQ (q : ℚ) : q ≤ (ceilQ q : ℚ) := by
  rw [ceilQ_eq_ceil]; exact Int.le_ceil q

theorem ceilQ_mono {a b : ℚ} (h : a ≤ b) : ceilQ a ≤ ceilQ b := by
  rw [ceilQ_eq_ceil, ceilQ_eq_ceil]; exact Int.ceil_le_ceil h

theorem vsize_pos (inputs outputs : List OutputInstance) : 0 < vsize inputs outputs := by
  have h : 43 / 4 ≤ (txOverheadWeight + (inputs.map (·.inputWeight)).sum
      + (outputs.map (·.outputWeight)).sum + 3) / 4 := by
    apply Nat.div_le_div_right
    simp [txOverheadWeight]; omega
  simpa [vsize] using Nat.lt_of_lt_of_le (by norm_num) h

theorem vsize_sublist_le {l₁ l₂ : List OutputInstance} (outputs : List OutputInstance)
    (h : l₁.Sublist l₂) : vsize l₁ outputs ≤ vsize l₂ outputs := by
  apply Nat.div_le_div_right
  have : ((l₁.map (·.inputWeight)).sum : ℕ) ≤ (l₂.map (·.inputWeight)).sum :=
    List.Sublist.sum_le_sum (List.Sublist.map _ h) (fun a _ => Nat.zero_le a)
  omega

theorem feeContribution_nonneg (utxos : List OutputWithValue)
    (remainder : OutputInstance) {fr : ℚ} (hfr : 0 ≤ fr) (u : OutputWithValue) :
    0 ≤ feeContribution utxos remainder fr u := by
  rw [feeContribution, allUtxosFee, sub_nonneg]
  apply ceilQ_mono
  apply mul_le_mul_of_nonneg_left _ hfr
  have h2 : ((utxos.filter (· ≠ u)).map (·.output)).Sublist (utxos.map (·.output)) :=
    List.Sublist.map _ (List.filter_sublist utxos)
  have := vsize_sublist_le [remainder] h2
  exact_mod_cast this

theorem filterValidUtxos_eq_ok (utxos : List OutputWithValue)
    (remainder : OutputInstance) {fr : ℚ} (hfr : 0 ≤ fr) (l : List OutputWithValue) :
    filterValidUtxos utxos remainder fr l =
      .ok (l.filter fun u => decide ((feeContribution utxos remainder fr u : ℚ) < u.value)) := by
  induction l with
  | nil => rfl
  | cons u rest ih =>
    have hnn := feeContribution_nonneg utxos remainder hfr u
    rw [filterValidUtxos, if_neg (not_lt.mpr hnn), ih]
    by_cases h : (feeContribution utxos remainder fr u : ℚ) < u.value <;>
      simp [List.filter_cons, Bind.bind, Except.bind, h]

/-! ### Validator characterizations -/

theorem validateFeeRate_ok_iff (n : JSNum) :
    validateFeeRate n = .ok () ↔ ∃ q, n = .fin q ∧ 1 ≤ q ∧ q ≤ MAX_FEE_RATE := by
  cases n with
  | fin q =>
    rw [validateFeeRate]
    by_cases h : q < 1 ∨ q > MAX_FEE_RATE
    · rw [if_pos h]
      constructor
      · intro hcontra; simp at hcontra
      · rintro ⟨q', hq, h1, h2⟩
        cases hq
        rcases h with h | h <;> linarith
    · rw [if_neg h]
      push_neg at h
      exact ⟨fun _ => ⟨q, rfl, h.1, h.2⟩, fun _ => rfl⟩
  | nan => simp [validateFeeRate]
  | posInf => simp [validateFeeRate]
  | negInf => simp [validateFeeRate]

theorem validateFeeRate_ok_or_error (n : JSNum) :
    validateFeeRate n = .ok () ∨ validateFeeRate n = .error .invalidFeeRate := by
  cases n with
  | fin q => rw [validateFeeRate]; split <;> simp
  | nan => right; rfl
  | posInf => right; rfl
  | negInf => right; rfl

theorem checkValues_ok_iff (l : List OutputWithValue) :
    checkValues l = .ok () ↔ ∀ o ∈ l, validValue o.value = true := by
  induction l with
  | nil => simp [checkValues]
  | cons o rest ih => by_cases h : validValue o.value <;> simp [checkValues, h, ih]

theorem checkValues_ok_or_error (l : List OutputWithValue) :
    checkValues l = .ok () ∨ checkValues l = .error .invalidValue := by
  induction l with
  | nil => left; rfl
  | cons o rest ih =>
    by_cases h : validValue o.value <;> simp [checkValues, h, ih]

theorem validateOutputWithValues_ok_iff (l : List OutputWithValue) :
    validateOutputWithValues l = .ok () ↔ l ≠ [] ∧ ∀ o ∈ l, validValue o.value = true := by
  by_cases h : l = [] <;> simp [validateOutputWithValues, h, List.isEmpty_iff, checkValues_ok_iff]

theorem validateOutputWithValues_cases (l : List OutputWithValue) :
    validateOutputWithValues l = .ok () ∨ validateOutputWithValues l = .error .emptyGroup ∨
      validateOutputWithValues l = .error .invalidValue := by
  by_cases h : l = []
  · right; left; simp [validateOutputWithValues, h]
  · rcases checkValues_ok_or_error l with hc | hc
    · left; simp [validateOutputWithValues, List.isEmpty_iff, h, hc]
    · right; right; simp [validateOutputWithValues, List.isEmpty_iff, h, hc]

theorem validatedFeeAndVsize_eq (utxos targets : List OutputWithValue) (fr : ℚ) :
    validatedFeeAndVsize utxos targets fr =
      (if (sumValues utxos - sumValues targets) /
            (vsize (utxos.map (·.output)) (targets.map (·.output)) : ℚ) < fr then
        .error .insufficientFee
      else if (sumValues utxos - sumValues targets) /
            (vsize (utxos.map (·.output)) (targets.map (·.output)) : ℚ) < 1 ∨
          MAX_FEE_RATE < (sumValues utxos - sumValues targets) /
            (vsize (utxos.map (·.output)) (targets.map (·.output)) : ℚ) then
        .error .invalidFeeRate
      else
        .ok ⟨sumValues utxos - sumValues targets,
          vsize (utxos.map (·.output)) (targets.map (·.output))⟩) := by
  rw [validatedFeeAndVsize]
  split
  · rfl
  · rw [validateFeeRate]
    split <;> simp_all [Bind.bind, Except.bind, GT.gt]

theorem ceilQ_intCast (n : ℤ) : ceilQ ((n : ℤ) : ℚ) = n := by
  rw [ceilQ_eq_ceil, Int.ceil_intCast]

theorem sumValues_single (o : OutputWithValue) : sumValues [o] = o.value := by
  simp [sumValues]

theorem maxFundsSelect_eq (utxos : List OutputWithValue) (rem : OutputInstance)
    {fr : ℚ} (hfr : 0 ≤ fr) (dr : ℚ) :
    maxFundsSelect utxos rem fr dr =
      if isDust rem (remainderValueOf utxos rem fr) dr then .ok none
      else
        (validatedFeeAndVsize (validUtxosOf utxos rem fr)
            [⟨rem, remainderValueOf utxos rem fr⟩] fr).bind fun fv =>
          .ok (some
            { utxos := if utxos.length = (validUtxosOf utxos rem fr).length
                then utxos else validUtxosOf utxos rem fr
              targets := [⟨rem, remainderValueOf utxos rem fr⟩]
              fee := fv.fee
              vsize := fv.vsize }) := by
  rw [maxFundsSelect, filterValidUtxos_eq_ok utxos rem hfr utxos]
  by_cases hd : isDust rem (remainderValueOf utxos rem fr) dr
  all_goals
    simp [Bind.bind, Except.bind, validUtxosOf, remainderValueOf, sweepFee, sweepVsize,
      hd] at hd ⊢
  all_goals
    simp [hd, validUtxosOf, remainderValueOf, sweepFee, sweepVsize]

theorem sweep_validatedFeeAndVsize (utxos : List OutputWithValue)
    (rem : OutputInstance) {fr : ℚ} (h1 : 1 ≤ fr) (h2 : fr ≤ MAX_FEE_RATE) :
    validatedFeeAndVsize (validUtxosOf utxos rem fr)
        [⟨rem, remainderValueOf utxos rem fr⟩] fr =
      .ok ⟨(sweepFee utxos rem fr : ℚ), sweepVsize utxos rem fr⟩ := by
  have hvs : (0 : ℚ) < (sweepVsize utxos rem fr : ℚ) := by
    exact_mod_cast vsize_pos ((validUtxosOf utxos rem fr).map (·.output)) [rem]
  have hceil : fr * (sweepVsize utxos rem fr : ℚ) ≤ (sweepFee utxos rem fr : ℚ) := by
    rw [sweepFee]; exact le_ceilQ _
  have hge : fr ≤ (sweepFee utxos rem fr : ℚ) / (sweepVsize utxos rem fr : ℚ) :=
    (le_div_iff₀ hvs).mpr hceil
  have hcast : MAX_FEE_RATE * (sweepVsize utxos rem fr : ℚ)
      = ((10000 * (sweepVsize utxos rem fr : ℤ) : ℤ) : ℚ) := by
    rw [MAX_FEE_RATE]; push_cast; ring
  have hfeele : sweepFee utxos rem fr ≤ 10000 * (sweepVsize utxos rem fr : ℤ) := by
    have h3 : ceilQ (fr * (sweepVsize utxos rem fr : ℚ))
        ≤ ceilQ (MAX_FEE_RATE * (sweepVsize utxos rem fr : ℚ)) :=
      ceilQ_mono (mul_le_mul_of_nonneg_right h2 hvs.le)
    rw [hcast, ceilQ_intCast] at h3
    exact h3
  have hmax : (sweepFee utxos rem fr : ℚ) / (sweepVsize utxos rem fr : ℚ) ≤ MAX_FEE_RATE := by
    rw [div_le_iff₀ hvs, hcast]
    exact_mod_cast hfeele
  have hfee : sumValues (validUtxosOf utxos rem fr)
      - sumValues [⟨rem, remainderValueOf utxos rem fr⟩] = (sweepFee utxos rem fr : ℚ) := by
    rw [sumValues_single, remainderValueOf]; ring
  have hvsz : vsize ((validUtxosOf utxos rem fr).map (·.output))
      (([⟨rem, remainderValueOf utxos rem fr⟩] : List OutputWithValue).map (·.output))
      = sweepVsize utxos rem fr := rfl
  rw [validatedFeeAndVsize_eq, hvsz, hfee, if_neg (not_lt.mpr hge),
    if_neg (by push_neg; exact ⟨le_trans h1 hge, hmax⟩)]

theorem filter_eq_self_of_length {α : Type} {p : α → Bool} {l : List α}
    (h : (l.filter p).length = l.length) : l.filter p = l :=
  (List.filter_sublist l).eq_of_length h

theorem maxFunds_eq_of_valid (utxos : List OutputWithValue) (rem : OutputInstance)
    (frN drN : JSNum) (h1 : validateOutputWithValues utxos = .ok ())
    (h2 : validateFeeRate frN = .ok ()) (h3 : validateFeeRate drN = .ok ()) :
    maxFunds utxos rem frN drN = maxFundsSelect utxos rem frN.toQ drN.toQ := by
  rw [maxFunds]
  simp [h1, h2, h3, Bind.bind, Except.bind]

theorem maxFunds_ok_some_inv {utxos : List OutputWithValue} {rem : OutputInstance}
    {frN drN : JSNum} {res : SelectionResult}
    (h : maxFunds utxos rem frN drN = .ok (some res)) :
    ∃ fr, frN = .fin fr ∧ 1 ≤ fr ∧ fr ≤ MAX_FEE_RATE ∧
      res = { utxos := if utxos.length = (validUtxosOf utxos rem fr).length
                then utxos else validUtxosOf utxos rem fr
              targets := [⟨rem, remainderValueOf utxos rem fr⟩]
              fee := (sweepFee utxos rem fr : ℚ)
              vsize := sweepVsize utxos rem fr } := by
  rcases validateOutputWithValues_cases utxos with hv | hv | hv
  · rcases validateFeeRate_ok_or_error frN with hf | hf
    · rcases validateFeeRate_ok_or_error drN with hd | hd
      · obtain ⟨fr, rfl, hfr1, hfr2⟩ := (validateFeeRate_ok_iff frN).mp hf
        rw [maxFunds_eq_of_valid utxos rem _ _ hv hf hd] at h
        have hfr0 : (0 : ℚ) ≤ (JSNum.fin fr).toQ := by
          simp [JSNum.toQ]; linarith
        rw [maxFundsSelect_eq utxos rem hfr0 _] at h
        by_cases hdust : isDust rem (remainderValueOf utxos rem (JSNum.fin fr).toQ) drN.toQ
        · rw [if_pos hdust] at h; simp at h
        · rw [if_neg hdust] at h
          rw [show (JSNum.fin fr).toQ = fr from rfl] at h
          rw [sweep_validatedFeeAndVsize utxos rem hfr1 hfr2] at h
          simp [Except.bind] at h
          exact ⟨fr, rfl, hfr1, hfr2, h.symm⟩
      · rw [maxFunds] at h; simp [hv, hf, hd, Bind.bind, Except.bind] at h
    · rw [maxFunds] at h; simp [hv, hf, Bind.bind, Except.bind] at h
  · rw [maxFunds] at h; simp [hv, Bind.bind, Except.bind] at h
  · rw [maxFunds] at h; simp [hv, Bind.bind, Except.bind] at h

theorem validValue_iff (q : ℚ) :
    validValue q = true ↔ (q.den = 1 ∧ 0 < q ∧ q ≤ 10 ^ 14) := by
  simp [validValue, and_assoc]

theorem checkDust_eq (dr : ℚ) (i : ℕ) (l : List OutputWithValue) :
    checkDust dr i l =
      if l.any (fun t => isDust t.output t.value dr) then
        .error (.dustTarget (i + l.findIdx (fun t => isDust t.output t.value dr)))
      else .ok () := by
  induction l generalizing i with
  | nil => rfl
  | cons t ts ih =>
    by_cases h : isDust t.output t.value dr
    · simp [checkDust, h, List.findIdx_cons]
    · rw [checkDust, if_neg (by simp [h]), ih (i + 1)]
      by_cases ha : ts.any (fun t => isDust t.output t.value dr) <;>
        · simp [ha, h, List.findIdx_cons]
          try omega

/-- C7: `validateDust` fails with `DustTargetError` carrying the index of
the first target (in input order) classified dust at its given value, and
returns without failure when no target is dust; later dusty targets do not
affect the reported index (it is the `findIdx` of the first one). -/
theorem validateDust_spec (targets : List OutputWithValue) (dustRelayFeeRate : ℚ) :
    validateDust targets dustRelayFeeRate =
      if targets.any (fun t => isDust t.output t.value dustRelayFeeRate) then
        .error (.dustTarget
          (targets.findIdx (fun t => isDust t.output t.value dustRelayFeeRate)))
      else .ok () := by
  rw [validateDust, checkDust_eq]
  simp

/-- C5: `validateOutputWithValues` fails with `EmptyGroupError` exactly when
the list is empty; otherwise it fails with `InvalidValueError` exactly when
some entry's value is non-integer, non-positive, or above 10^14, and
succeeds exactly when every value is an integer in (0, 10^14]. -/
theorem validateOutputWithValues_spec (l : List OutputWithValue) :
    (validateOutputWithValues l = .error .emptyGroup ↔ l = []) ∧
    (validateOutputWithValues l = .ok () ↔
      l ≠ [] ∧ ∀ o ∈ l, (o.value.den = 1 ∧ 0 < o.value ∧ o.value ≤ 10 ^ 14)) ∧
    (validateOutputWithValues l = .error .invalidValue ↔
      l ≠ [] ∧ ∃ o ∈ l, ¬(o.value.den = 1 ∧ 0 < o.value ∧ o.value ≤ 10 ^ 14)) := by
  refine ⟨?_, ?_, ?_⟩
  · by_cases h : l = []
    · simp [validateOutputWithValues, h]
    · simp only [h, iff_false]
      rcases checkValues_ok_or_error l with hc | hc <;>
        simp [validateOutputWithValues, List.isEmpty_iff, h, hc]
  · rw [validateOutputWithValues_ok_iff]
    simp only [validValue_iff]
  · by_cases h : l = []
    · simp [validateOutputWithValues, h]
    · have hne : ¬ l.isEmpty = true := by simpa [List.isEmpty_iff] using h
      rcases checkValues_ok_or_error l with hc | hc
      · have hgood := (checkValues_ok_iff l).mp hc
        simp only [validValue_iff] at hgood
        rw [validateOutputWithValues, if_neg hne, hc]
        constructor
        · intro hcontra; exact Except.noConfusion hcontra
        · rintro ⟨-, o, ho, hbad⟩; exact absurd (hgood o ho) hbad
      · have hnot : ¬ ∀ o ∈ l, (o.value.den = 1 ∧ 0 < o.value ∧ o.value ≤ 10 ^ 14) := by
          intro hall
          have hok : checkValues l = .ok () :=
            (checkValues_ok_iff l).mpr (by simpa only [validValue_iff])
          rw [hok] at hc
          exact Except.noConfusion hc
        rw [validateOutputWithValues, if_neg hne, hc]
        constructor
        · intro _
          refine ⟨h, ?_⟩
          by_contra hno
          push_neg at hno
          exact hnot hno
        · intro _; rfl

/-- C6: `validateFeeRate` fails with `InvalidFeeRateError` exactly when the
rate is non-finite, strictly below 1, or strictly above `MAX_FEE_RATE`, and
succeeds on every finite rate in [1, MAX_FEE_RATE]; in particular 0.5 is
rejected. -/
theorem validateFeeRate_spec (n : JSNum) :
    (validateFeeRate n = .ok () ↔ ∃ q, n = .fin q ∧ 1 ≤ q ∧ q ≤ MAX_FEE_RATE) ∧
    (validateFeeRate n = .error .invalidFeeRate ↔
      n = .nan ∨ n = .posInf ∨ n = .negInf ∨
        ∃ q, n = .fin q ∧ (q < 1 ∨ MAX_FEE_RATE < q)) ∧
    validateFeeRate (.fin (1 / 2)) = .error .invalidFeeRate := by
  refine ⟨validateFeeRate_ok_iff n, ?_, by decide⟩
  cases n with
  | fin q =>
    rw [validateFeeRate]
    by_cases h : q < 1 ∨ q > MAX_FEE_RATE
    · rw [if_pos h]
      simp only [JSNum.fin.injEq]
      constructor
      · intro _
        exact Or.inr (Or.inr (Or.inr ⟨q, rfl, h⟩))
      · intro _; trivial
    · rw [if_neg h]
      push_neg at h
      constructor
      · intro hcontra; exact Except.noConfusion hcontra
      · rintro (hcase | hcase | hcase | ⟨q', hq, hcase⟩) <;> try exact JSNum.noConfusion hcase
        cases hq
        rcases hcase with hc | hc <;> [exact absurd hc (not_lt.mpr h.1); exact absurd hc (not_lt.mpr h.2)]
  | nan => simp [validateFeeRate]
  | posInf => simp [validateFeeRate]
  | negInf => simp [validateFeeRate]

/-- C3: `validatedFeeAndVsize` computes fee = Σ(utxo values) − Σ(target
values) and vsize via the size estimator, fails with `InsufficientFeeError`
exactly when fee / vsize is below the requested rate, otherwise re-runs
`validateFeeRate` on the realized rate (failing with `InvalidFeeRateError`
when it is below 1 or above `MAX_FEE_RATE`), and otherwise returns exactly
the pair {fee, vsize}. -/
theorem validatedFeeAndVsize_spec (utxos targets : List OutputWithValue) (feeRate : ℚ) :
    (validatedFeeAndVsize utxos targets feeRate =
      (if (sumValues utxos - sumValues targets) /
            (vsize (utxos.map (·.output)) (targets.map (·.output)) : ℚ) < feeRate then
        .error .insufficientFee
      else if (sumValues utxos - sumValues targets) /
            (vsize (utxos.map (·.output)) (targets.map (·.output)) : ℚ) < 1 ∨
          MAX_FEE_RATE < (sumValues utxos - sumValues targets) /
            (vsize (utxos.map (·.output)) (targets.map (·.output)) : ℚ) then
        .error .invalidFeeRate
      else
        .ok ⟨sumValues utxos - sumValues targets,
          vsize (utxos.map (·.output)) (targets.map (·.output))⟩)) ∧
    (validatedFeeAndVsize utxos targets feeRate = .error .insufficientFee ↔
      (sumValues utxos - sumValues targets) /
        (vsize (utxos.map (·.output)) (targets.map (·.output)) : ℚ) < feeRate) := by
  refine ⟨validatedFeeAndVsize_eq utxos targets feeRate, ?_⟩
  rw [validatedFeeAndVsize_eq]
  split_ifs with h1 h2 <;> simp [h1]

theorem sweep_rate_ge (utxos : List OutputWithValue) (rem : OutputInstance) (fr : ℚ) :
    fr ≤ (sweepFee utxos rem fr : ℚ) / (sweepVsize utxos rem fr : ℚ) := by
  have hvs : (0 : ℚ) < (sweepVsize utxos rem fr : ℚ) := by
    exact_mod_cast vsize_pos ((validUtxosOf utxos rem fr).map (·.output)) [rem]
  rw [le_div_iff₀ hvs, sweepFee]
  exact le_ceilQ _

/-- C1: every successful `maxFunds` result satisfies
fee = Σ(selected UTXO values) − Σ(final target values) exactly, and
fee / vsize is at least the requested fee rate. -/
theorem maxFunds_fee_and_rate_invariant (utxos : List OutputWithValue)
    (rem : OutputInstance) (feeRate dustRelayFeeRate : JSNum) (res : SelectionResult)
    (h : maxFunds utxos rem feeRate dustRelayFeeRate = .ok (some res)) :
    res.fee = sumValues res.utxos - sumValues res.targets ∧
    feeRate.toQ ≤ res.fee / (res.vsize : ℚ) := by
  obtain ⟨fr, rfl, hfr1, hfr2, hres⟩ := maxFunds_ok_some_inv h
  subst hres
  have hvu : validUtxosOf utxos rem fr
      = utxos.filter (fun u => decide ((feeContribution utxos rem fr u : ℚ) < u.value)) := rfl
  constructor
  · simp only [sumValues_single]
    by_cases hlen : utxos.length = (validUtxosOf utxos rem fr).length
    · have hflen : (utxos.filter
          (fun u => decide ((feeContribution utxos rem fr u : ℚ) < u.value))).length
          = utxos.length := by rw [← hvu]; omega
      have hself : validUtxosOf utxos rem fr = utxos := by
        rw [hvu]; exact filter_eq_self_of_length hflen
      rw [if_pos hlen, remainderValueOf, hself]
      ring
    · rw [if_neg hlen, remainderValueOf]
      ring
  · exact sweep_rate_ge utxos rem fr

/-- C2: for every successful `maxFunds` call, the retained UTXO set is
exactly the subsequence of the input whose value strictly exceeds that
UTXO's own marginal fee contribution (`allUtxosFee` minus the fee with that
UTXO excluded); in particular no returned selection contains a UTXO whose
value does not exceed its marginal contribution. -/
theorem maxFunds_prunes_uneconomical_utxos (utxos : List OutputWithValue)
    (rem : OutputInstance) (feeRate dustRelayFeeRate : JSNum) (res : SelectionResult)
    (h : maxFunds utxos rem feeRate dustRelayFeeRate = .ok (some res)) :
    res.utxos = utxos.filter
      (fun u => decide ((feeContribution utxos rem feeRate.toQ u : ℚ) < u.value)) ∧
    ∀ u ∈ res.utxos, (feeContribution utxos rem feeRate.toQ u : ℚ) < u.value := by
  obtain ⟨fr, rfl, hfr1, hfr2, hres⟩ := maxFunds_ok_some_inv h
  subst hres
  rw [show (JSNum.fin fr).toQ = fr from rfl]
  have hvu : validUtxosOf utxos rem fr
      = utxos.filter (fun u => decide ((feeContribution utxos rem fr u : ℚ) < u.value)) := rfl
  have hfilter : (if utxos.length = (validUtxosOf utxos rem fr).length
        then utxos else validUtxosOf utxos rem fr)
      = utxos.filter (fun u => decide ((feeContribution utxos rem fr u : ℚ) < u.value)) := by
    by_cases hlen : utxos.length = (validUtxosOf utxos rem fr).length
    · have hflen : (utxos.filter
          (fun u => decide ((feeContribution utxos rem fr u : ℚ) < u.value))).length
          = utxos.length := by rw [← hvu]; omega
      rw [if_pos hlen]
      exact (filter_eq_self_of_length hflen).symm
    · rw [if_neg hlen, hvu]
  refine ⟨hfilter, ?_⟩
  intro u hu
  rw [hfilter] at hu
  simpa using List.of_mem_filter hu

/-- C8: when no UTXO is pruned, the successful `maxFunds` result carries
the caller's own UTXO sequence; when at least one is pruned it carries the
filtered subsequence. -/
theorem maxFunds_returns_caller_sequence (utxos : List OutputWithValue)
    (rem : OutputInstance) (feeRate dustRelayFeeRate : JSNum) (res : SelectionResult)
    (h : maxFunds utxos rem feeRate dustRelayFeeRate = .ok (some res)) :
    (utxos.filter (fun u => decide ((feeContribution utxos rem feeRate.toQ u : ℚ) < u.value))
        = utxos → res.utxos = utxos) ∧
    (utxos.filter (fun u => decide ((feeContribution utxos rem feeRate.toQ u : ℚ) < u.value))
        ≠ utxos →
      res.utxos = utxos.filter
        (fun u => decide ((feeContribution utxos rem feeRate.toQ u : ℚ) < u.value))) := by
  obtain ⟨fr, rfl, hfr1, hfr2, hres⟩ := maxFunds_ok_some_inv h
  subst hres
  rw [show (JSNum.fin fr).toQ = fr from rfl]
  have hvu : validUtxosOf utxos rem fr
      = utxos.filter (fun u => decide ((feeContribution utxos rem fr u : ℚ) < u.value)) := rfl
  constructor
  · intro heq
    have hlen : utxos.length = (validUtxosOf utxos rem fr).length := by rw [hvu, heq]
    simp only [if_pos hlen]
  · intro hne
    have hlen : ¬ utxos.length = (validUtxosOf utxos rem fr).length := by
      intro hlen
      have hflen : (utxos.filter
          (fun u => decide ((feeContribution utxos rem fr u : ℚ) < u.value))).length
          = utxos.length := by rw [← hvu]; omega
      exact hne (filter_eq_self_of_length hflen)
    simp only [if_neg hlen]
    rw [hvu]

theorem validatedFeeAndVsize_error_cases {utxos targets : List OutputWithValue}
    {fr : ℚ} {e : Err} (h : validatedFeeAndVsize utxos targets fr = .error e) :
    e = .insufficientFee ∨ e = .invalidFeeRate := by
  rw [validatedFeeAndVsize_eq] at h
  split_ifs at h <;> simp at h <;> simp [h]

/-- C4: for inputs passing validation, `maxFunds` returns an explicit
absence (and no error) exactly when the recipient value — the retained
values minus the recomputed fee — would be dust at the dust relay fee rate;
otherwise it returns a Selection Result whose final targets are exactly the
single recipient carrying that value. -/
theorem maxFunds_dust_infeasibility (utxos : List OutputWithValue)
    (rem : OutputInstance) (feeRate dustRelayFeeRate : JSNum)
    (h1 : validateOutputWithValues utxos = .ok ())
    (h2 : validateFeeRate feeRate = .ok ())
    (h3 : validateFeeRate dustRelayFeeRate = .ok ()) :
    (isDust rem (remainderValueOf utxos rem feeRate.toQ) dustRelayFeeRate.toQ = true →
      maxFunds utxos rem feeRate dustRelayFeeRate = .ok none) ∧
    (isDust rem (remainderValueOf utxos rem feeRate.toQ) dustRelayFeeRate.toQ = false →
      ∃ res, maxFunds utxos rem feeRate dustRelayFeeRate = .ok (some res) ∧
        res.targets = [⟨rem, remainderValueOf utxos rem feeRate.toQ⟩]) := by
  obtain ⟨fr, hfrN, hfr1, hfr2⟩ := (validateFeeRate_ok_iff feeRate).mp h2
  subst hfrN
  rw [maxFunds_eq_of_valid utxos rem _ _ h1 h2 h3]
  rw [show (JSNum.fin fr).toQ = fr from rfl]
  rw [maxFundsSelect_eq utxos rem (by linarith) dustRelayFeeRate.toQ]
  constructor
  · intro hd
    rw [if_pos hd]
  · intro hd
    rw [if_neg (by simp [hd])]
    rw [sweep_validatedFeeAndVsize utxos rem hfr1 hfr2]
    exact ⟨_, rfl, rfl⟩

/-- C9: `maxFunds` also validates its optional `dustRelayFeeRate` argument
with `validateFeeRate`: whenever that argument is non-finite, below 1 or
above `MAX_FEE_RATE` (and the UTXO list itself passes validation),
`maxFunds` fails with `InvalidFeeRateError`. -/
theorem maxFunds_validates_dust_relay_rate (utxos : List OutputWithValue)
    (rem : OutputInstance) (feeRate dustRelayFeeRate : JSNum)
    (h1 : validateOutputWithValues utxos = .ok ())
    (h2 : dustRelayFeeRate = .nan ∨ dustRelayFeeRate = .posInf ∨
      dustRelayFeeRate = .negInf ∨
      ∃ q, dustRelayFeeRate = .fin q ∧ (q < 1 ∨ MAX_FEE_RATE < q)) :
    maxFunds utxos rem feeRate dustRelayFeeRate = .error .invalidFeeRate := by
  have hd : validateFeeRate dustRelayFeeRate = .error .invalidFeeRate := by
    rcases h2 with h | h | h | ⟨q, hq, hrange⟩
    · rw [h]; rfl
    · rw [h]; rfl
    · rw [h]; rfl
    · rw [hq, validateFeeRate, if_pos hrange]
  rcases validateFeeRate_ok_or_error feeRate with hf | hf <;>
    · rw [maxFunds]
      simp [h1, hf, hd, Bind.bind, Except.bind]

/-- C10: the `feeContribution < 0` guard inside `maxFunds` is unreachable:
no call ever surfaces that internal error, because the virtual size is
monotone in the input set so each marginal fee contribution is non-negative
whenever the validated fee rate is used. -/
theorem maxFunds_guard_unreachable (utxos : List OutputWithValue)
    (rem : OutputInstance) (feeRate dustRelayFeeRate : JSNum) :
    maxFunds utxos rem feeRate dustRelayFeeRate ≠ .error .negFeeContribution := by
  intro h
  rcases validateOutputWithValues_cases utxos with hv | hv | hv
  · rcases validateFeeRate_ok_or_error feeRate with hf | hf
    · rcases validateFeeRate_ok_or_error dustRelayFeeRate with hd | hd
      · obtain ⟨fr, hfrN, hfr1, hfr2⟩ := (validateFeeRate_ok_iff feeRate).mp hf
        subst hfrN
        rw [maxFunds_eq_of_valid utxos rem _ _ hv hf hd] at h
        rw [show (JSNum.fin fr).toQ = fr from rfl] at h
        rw [maxFundsSelect_eq utxos rem (by linarith) dustRelayFeeRate.toQ] at h
        by_cases hdust : isDust rem (remainderValueOf utxos rem fr) dustRelayFeeRate.toQ
        · rw [if_pos hdust] at h
          exact Except.noConfusion h
        · rw [if_neg hdust] at h
          cases hvfv : validatedFeeAndVsize (validUtxosOf utxos rem fr)
              [⟨rem, remainderValueOf utxos rem fr⟩] fr with
          | ok fv => rw [hvfv] at h; simp [Except.bind] at h
          | error e =>
            rw [hvfv] at h
            simp [Except.bind] at h
            rcases validatedFeeAndVsize_error_cases hvfv with he | he <;> simp [he] at h
      · rw [maxFunds] at h; simp [hv, hf, hd, Bind.bind, Except.bind] at h
    · rw [maxFunds] at h; simp [hv, hf, Bind.bind, Except.bind] at h
  · rw [maxFunds] at h; simp [hv, Bind.bind, Except.bind] at h
  · rw [maxFunds] at h; simp [hv, Bind.bind, Except.bind] at h

/-! ### Witnesses -/

/-- Witness for C1 at a concrete successful sweep. -/
theorem maxFunds_fee_and_rate_invariant_witness :
    wRes.fee = sumValues wRes.utxos - sumValues wRes.targets ∧
    (JSNum.fin 1).toQ ≤ wRes.fee / (wRes.vsize : ℚ) :=
  maxFunds_fee_and_rate_invariant [wUtxo] wOut (.fin 1) (.fin 3) wRes (by decide)

/-- Witness for C2 at a concrete successful sweep. -/
theorem maxFunds_prunes_uneconomical_utxos_witness :
    wRes.utxos = [wUtxo].filter
      (fun u => decide ((feeContribution [wUtxo] wOut (JSNum.fin 1).toQ u : ℚ) < u.value)) ∧
    ∀ u ∈ wRes.utxos, (feeContribution [wUtxo] wOut (JSNum.fin 1).toQ u : ℚ) < u.value :=
  maxFunds_prunes_uneconomical_utxos [wUtxo] wOut (.fin 1) (.fin 3) wRes (by decide)

/-- Witness for C4: one call that succeeds with the single recipient target
and one whose recipient value is dust and yields an explicit absence. -/
theorem maxFunds_dust_infeasibility_witness :
    (∃ res, maxFunds [wUtxo] wOut (.fin 1) (.fin 3) = .ok (some res) ∧
      res.targets = [⟨wOut, remainderValueOf [wUtxo] wOut (JSNum.fin 1).toQ⟩]) ∧
    maxFunds [⟨wOut, 50⟩] wOut (.fin 1) (.fin 3) = .ok none :=
  ⟨(maxFunds_dust_infeasibility [wUtxo] wOut (.fin 1) (.fin 3)
      (by decide) (by decide) (by decide)).2 (by decide),
   (maxFunds_dust_infeasibility [⟨wOut, 50⟩] wOut (.fin 1) (.fin 3)
      (by decide) (by decide) (by decide)).1 (by decide)⟩

/-- Witness for C8 at a concrete sweep where nothing is pruned. -/
theorem maxFunds_returns_caller_sequence_witness :
    ([wUtxo].filter
        (fun u => decide ((feeContribution [wUtxo] wOut (JSNum.fin 1).toQ u : ℚ) < u.value))
      = [wUtxo] → wRes.utxos = [wUtxo]) ∧
    ([wUtxo].filter
        (fun u => decide ((feeContribution [wUtxo] wOut (JSNum.fin 1).toQ u : ℚ) < u.value))
      ≠ [wUtxo] →
      wRes.utxos = [wUtxo].filter
        (fun u => decide ((feeContribution [wUtxo] wOut (JSNum.fin 1).toQ u : ℚ) < u.value))) :=
  maxFunds_returns_caller_sequence [wUtxo] wOut (.fin 1) (.fin 3) wRes (by decide)

/-- Witness for C9: a finite but sub-minimum dust relay fee rate makes
`maxFunds` fail with `InvalidFeeRateError` even though the fee rate itself
is valid. -/
theorem maxFunds_validates_dust_relay_rate_witness :
    maxFunds [wUtxo] wOut (.fin 2) (.fin (1 / 2)) = .error .invalidFeeRate :=
  maxFunds_validates_dust_relay_rate [wUtxo] wOut (.fin 2) (.fin (1 / 2)) (by decide)
    (Or.inr (Or.inr (Or.inr ⟨1 / 2, rfl, Or.inl (by norm_num)⟩)))

/-- Witness for C10 at a concrete call. -/
theorem maxFunds_guard_unreachable_witness :
    maxFunds [wUtxo] wOut (.fin 1) (.fin 3) ≠ .error .negFeeContribution :=
  maxFunds_guard_unreachable [wUtxo] wOut (.fin 1) (.fin 3)
